import Mathlib

/- Shallow embedding of the floodfill fire-event labeling program:
   the algorithm of floodfill/algorithms/nogueira_etal.py together with
   the range filter appearing in floodfill/utils.py (identical to the
   copy in floodfill/__init__.py) and in the standalone floodfill.py
   script.

   Grids are total functions from coordinates (y, x) to values; the
   program only reads coordinates inside the H by W rectangle.  Dates
   are modelled as integers and identifiers as natural numbers: the
   documented date domain is [0, 366] (well inside int16), and the
   design notes of the specification declare identifier-counter
   overflow behaviour undefined, so machine-width wraparound is not
   modelled. -/

/-- Pointwise update of a grid at one cell. -/
def setCell {α : Type} (f : ℕ × ℕ → α) (c : ℕ × ℕ) (v : α) : ℕ × ℕ → α :=
  fun d => if d = c then v else f d

/-- Least element of a list of identifiers (0 on the empty list, which the
source never queries).  numpy.unique returns the sorted distinct values, so
both accesses current_ids[0] and current_ids.min() in the source equal the
minimum of the distinct values, which this function computes. -/
def minId : List ℕ → ℕ
  | [] => 0
  | [a] => a
  | a :: b :: t => min a (minId (b :: t))

/-- The boolean mask of _get_neighbors (nogueira_etal.py, lines 12-38): True
exactly on the window of radius distance around center (y, x), clipped at
the grid border, with the center itself reset to False.  Natural-number
subtraction y - distance coincides with max(y - distance, 0) of the source. -/
def get_neighbors (x y H W distance : ℕ) (c : ℕ × ℕ) : Bool :=
  (decide (y - distance ≤ c.1) && decide (c.1 < min (y + distance + 1) H) &&
   decide (x - distance ≤ c.2) && decide (c.2 < min (x + distance + 1) W)) &&
  !(decide (c.1 = y) && decide (c.2 = x))

/-- All grid coordinates (y, x) in row-major order, the order in which
numpy enumerates cells (and in which numpy.where returns indices). -/
def allCoords (H W : ℕ) : List (ℕ × ℕ) :=
  (List.range H).flatMap fun y => (List.range W).map fun x => (y, x)

/-- The list of neighbor coordinates of center (y, x): the cells of the mask
returned by _get_neighbors, in row-major order (the order in which numpy
boolean-mask indexing extracts elements). -/
def neighborList (x y H W : ℕ) : List (ℕ × ℕ) :=
  (allCoords H W).filter fun c => get_neighbors x y H W 1 c

/-- The mutable state of run: the fire-id raster (uint16 in the source,
idealized to ℕ), the burn-date raster (int16, idealized to ℤ) and the
running fire counter. -/
structure FFState where
  fireId : ℕ × ℕ → ℕ
  burnDate : ℕ × ℕ → ℤ
  counter : ℕ

/-- Zero-filled output grids and fire_counter = 1, as allocated at the start
of run. -/
def initState : FFState := ⟨fun _ => 0, fun _ => 0, 1⟩

/-- numpy.where(raster > 0): the coordinates of burned pixels in row-major
order. -/
def burnedCoords (H W : ℕ) (raster : ℕ × ℕ → ℤ) : List (ℕ × ℕ) :=
  (allCoords H W).filter fun c => decide (0 < raster c)

/-- neighbor_ids.sum() of the source: the sum of the fire ids over the
neighborhood of z. -/
def neighborIdSum (H W : ℕ) (s : FFState) (z : ℕ × ℕ) : ℕ :=
  ((neighborList z.2 z.1 H W).map s.fireId).sum

/-- The neighbors of z whose burn-date entry lies within cut_off of the date
of z: the cells selected by the boolean array current_fire of the source.
Unprocessed neighbors carry burn date 0 and are therefore selected whenever
the date of z is itself at most cut_off. -/
def matchingOf (H W : ℕ) (raster : ℕ × ℕ → ℤ) (cutOff : ℤ) (s : FFState) (z : ℕ × ℕ) :
    List (ℕ × ℕ) :=
  (neighborList z.2 z.1 H W).filter fun q => decide (|s.burnDate q - raster z| ≤ cutOff)

/-- numpy.unique(neighbor_ids[current_fire]): the distinct fire ids among the
matching neighbors (possibly including 0). -/
def currentIdsOf (H W : ℕ) (raster : ℕ × ℕ → ℤ) (cutOff : ℤ) (s : FFState) (z : ℕ × ℕ) :
    List ℕ :=
  ((matchingOf H W raster cutOff s z).map s.fireId).dedup

/-- One iteration of the scan loop of run (nogueira_etal.py, lines 67-109)
at pixel z.  The branch structure mirrors the source: the first branch is
taken when no old fire is present or no neighbor matches (with the inner
defensive skip when the pixel already carries a nonzero id); otherwise a
single distinct matching id is adopted, or a merge rewrites every cell
holding one of the matching ids to their minimum. -/
def step (H W : ℕ) (raster : ℕ × ℕ → ℤ) (cutOff : ℤ) (s : FFState) (z : ℕ × ℕ) : FFState :=
  if ¬ 0 < neighborIdSum H W s z ∨
      (0 < neighborIdSum H W s z ∧ (matchingOf H W raster cutOff s z).length = 0) then
    if 0 < s.fireId z then s
    else ⟨setCell s.fireId z s.counter, setCell s.burnDate z (raster z), s.counter + 1⟩
  else if 0 < neighborIdSum H W s z ∧ 0 < (matchingOf H W raster cutOff s z).length then
    if (matchingOf H W raster cutOff s z).length = 1 ∨
        (1 < (matchingOf H W raster cutOff s z).length ∧
          (currentIdsOf H W raster cutOff s z).length = 1) then
      ⟨setCell s.fireId z (minId (currentIdsOf H W raster cutOff s z)),
       setCell s.burnDate z (raster z), s.counter⟩
    else if 1 < (matchingOf H W raster cutOff s z).length ∧
        1 < (currentIdsOf H W raster cutOff s z).length then
      ⟨setCell
         (fun c => if s.fireId c ∈ currentIdsOf H W raster cutOff s z
                   then minId (currentIdsOf H W raster cutOff s z) else s.fireId c)
         z (minId (currentIdsOf H W raster cutOff s z)),
       setCell s.burnDate z (raster z), s.counter⟩
    else s
  else s

/-- run of nogueira_etal.py: fold the scan step over the burned coordinates
in row-major order, starting from zero-filled output grids. -/
def run (H W : ℕ) (raster : ℕ × ℕ → ℤ) (cutOff : ℤ) : FFState :=
  (burnedCoords H W raster).foldl (step H W raster cutOff) initState

/-- isolate_burned_pixels of floodfill/utils.py (and floodfill/__init__.py):
a cell is zeroed when its value is ≤ lower or ≥ upper. -/
def isolate_burned_pixels (array : ℕ × ℕ → ℤ) (upper lower : ℤ) : ℕ × ℕ → ℤ :=
  fun c => if array c ≤ lower ∨ array c ≥ upper then 0 else array c

/-- isolate_burned_pixels of the standalone floodfill.py script: a cell is
zeroed when its value is < lower or > upper. -/
def isolate_burned_pixels_script (array : ℕ × ℕ → ℤ) (upper lower : ℤ) : ℕ × ℕ → ℤ :=
  fun c => if array c < lower ∨ array c > upper then 0 else array c

/-- Strict row-major order on coordinates. -/
def rmLt (p q : ℕ × ℕ) : Prop := p.1 < q.1 ∨ (p.1 = q.1 ∧ p.2 < q.2)

instance (p q : ℕ × ℕ) : Decidable (rmLt p q) := by
  unfold rmLt
  infer_instance

/-- The universal loop invariant of the scan: unprocessed cells hold fire id
0 and burn date 0, processed cells hold their own raster value as burn date,
and the counter stays positive.  P is the list of already processed burned
coordinates. -/
def UInv (raster : ℕ × ℕ → ℤ) (P : List (ℕ × ℕ)) (s : FFState) : Prop :=
  (∀ c, c ∉ P → s.fireId c = 0) ∧
  (∀ c, c ∉ P → s.burnDate c = 0) ∧
  (∀ c, c ∈ P → s.burnDate c = raster c) ∧
  1 ≤ s.counter

/- Concrete rasters used as witnesses and counterexamples. -/

/-- A 2 by 2 grid holding dates 1 and 2 in the top row: two 8-adjacent burned
pixels whose dates are both at most a cutoff of 2. -/
def rasterMergeZero : ℕ × ℕ → ℤ :=
  fun c => if c = (0, 0) then 1 else if c = (0, 1) then 2 else 0

/-- A 1 by 4 grid holding dates 10, 1, 2, 0: pixel (0,1) has date at most
the cutoff 1 and a non-matching labeled neighbor, triggering the zero-id
adoption quirk. -/
def rasterChainSplit : ℕ × ℕ → ℤ :=
  fun c => if c = (0, 0) then 10 else if c = (0, 1) then 1 else
    if c = (0, 2) then 2 else 0

/-- A 1 by 2 grid holding dates 5 and 1: the second pixel differs from the
first by more than a cutoff of 3 but its own date is at most the cutoff. -/
def rasterAdoptZero : ℕ × ℕ → ℤ :=
  fun c => if c = (0, 0) then 5 else if c = (0, 1) then 1 else 0

/-- A 1 by 2 grid holding dates 1 and 2: two 8-adjacent burned pixels with
date difference 1. -/
def rasterPair : ℕ × ℕ → ℤ :=
  fun c => if c = (0, 0) then 1 else if c = (0, 1) then 2 else 0

/-- A 1 by 2 grid holding dates 5 and 6: two 8-adjacent burned pixels whose
dates both exceed a cutoff of 2. -/
def rasterPairLate : ℕ × ℕ → ℤ :=
  fun c => if c = (0, 0) then 5 else if c = (0, 1) then 6 else 0

/- With a negative cutoff no neighbor can ever match, so every burned pixel
takes the fresh-id branch: the invariant below tracks that the i-th
processed pixel holds id i+1. -/

/-- Loop invariant of the scan under a negative cutoff: the counter equals
the number of processed pixels plus one, the i-th processed pixel holds fire
id i+1, and unprocessed cells hold 0. -/
def NInv (P : List (ℕ × ℕ)) (s : FFState) : Prop :=
  s.counter = P.length + 1 ∧
  (∀ (i : ℕ) (hi : i < P.length), s.fireId (P.get ⟨i, hi⟩) = i + 1) ∧
  (∀ c, c ∉ P → s.fireId c = 0)

/- Machinery for claim C1: the chain property of the final partition. -/

/-- One link of a same-event chain: both cells in bounds and burned,
8-adjacent and distinct, with burn dates within the cutoff of each other. -/
def sameEventStep (H W : ℕ) (raster : ℕ × ℕ → ℤ) (cutOff : ℤ) (p q : ℕ × ℕ) : Prop :=
  (p.1 < H ∧ p.2 < W) ∧ (q.1 < H ∧ q.2 < W) ∧ 0 < raster p ∧ 0 < raster q ∧
    p ≠ q ∧ |(p.1 : ℤ) - q.1| ≤ 1 ∧ |(p.2 : ℤ) - q.2| ≤ 1 ∧
    |raster p - raster q| ≤ cutOff

instance (H W : ℕ) (raster : ℕ × ℕ → ℤ) (cutOff : ℤ) (p q : ℕ × ℕ) :
    Decidable (sameEventStep H W raster cutOff p q) := by
  unfold sameEventStep
  infer_instance

/-- Loop invariant of the scan when every burned date exceeds the cutoff
(the unlabeled-neighbor quirk then never fires): processed cells carry their
own date and a positive id, unprocessed cells are blank, and any two
processed cells joined by a single same-event link share one id. -/
def QInv (H W : ℕ) (raster : ℕ × ℕ → ℤ) (cutOff : ℤ) (P : List (ℕ × ℕ))
    (s : FFState) : Prop :=
  (∀ c ∈ P, (c.1 < H ∧ c.2 < W) ∧ 0 < raster c) ∧
  (∀ c, c ∉ P → s.fireId c = 0 ∧ s.burnDate c = 0) ∧
  (∀ c ∈ P, s.burnDate c = raster c ∧ 0 < s.fireId c) ∧
  1 ≤ s.counter ∧
  (∀ p q, p ∈ P → q ∈ P → sameEventStep H W raster cutOff p q →
    s.fireId p = s.fireId q)

/- Helper lemmas about the embedding. -/

theorem setCell_same {α : Type} (f : ℕ × ℕ → α) (c : ℕ × ℕ) (v : α) : setCell f c v c = v := by
  simp [setCell]

theorem setCell_other {α : Type} (f : ℕ × ℕ → α) (c : ℕ × ℕ) (v : α) (d : ℕ × ℕ)
    (h : d ≠ c) : setCell f c v d = f d := by
  simp [setCell, h]

theorem minId_mem : ∀ (l : List ℕ), l ≠ [] → minId l ∈ l
  | [], h => absurd rfl h
  | [a], _ => by simp [minId]
  | a :: b :: t, _ => by
    rw [minId]
    rcases Nat.le_total a (minId (b :: t)) with h | h
    · simp [Nat.min_eq_left h]
    · have := minId_mem (b :: t) (by simp)
      rw [Nat.min_eq_right h]
      exact List.mem_cons_of_mem a this

theorem minId_le : ∀ (l : List ℕ) (a : ℕ), a ∈ l → minId l ≤ a
  | [a], b, h => by simp at h; simp [minId, h]
  | a :: b :: t, c, h => by
    rw [minId]
    rcases List.mem_cons.1 h with rfl | h
    · exact Nat.min_le_left _ _
    · exact le_trans (Nat.min_le_right _ _) (minId_le (b :: t) c h)

theorem minId_eq_zero_of_mem {l : List ℕ} (h : 0 ∈ l) : minId l = 0 :=
  Nat.le_zero.1 (minId_le l 0 h)

theorem minId_pos {l : List ℕ} (hne : l ≠ []) (h : ∀ a ∈ l, 0 < a) : 0 < minId l :=
  h _ (minId_mem l hne)

theorem get_neighbors_iff (x y H W distance : ℕ) (c : ℕ × ℕ) :
    get_neighbors x y H W distance c = true ↔
      c.1 < H ∧ c.2 < W ∧ |(c.1 : ℤ) - y| ≤ distance ∧ |(c.2 : ℤ) - x| ≤ distance ∧
        ¬(c.1 = y ∧ c.2 = x) := by
  unfold get_neighbors
  simp only [Bool.and_eq_true, Bool.not_eq_true', Bool.and_eq_false_iff, decide_eq_true_eq,
    decide_eq_false_iff_not, abs_le]
  omega

theorem mem_allCoords (H W : ℕ) (c : ℕ × ℕ) : c ∈ allCoords H W ↔ c.1 < H ∧ c.2 < W := by
  cases c with
  | mk y x =>
    simp only [allCoords, List.mem_flatMap, List.mem_map, List.mem_range, Prod.mk.injEq]
    constructor
    · rintro ⟨a, ha, b, hb, rfl, rfl⟩
      exact ⟨ha, hb⟩
    · rintro ⟨hy, hx⟩
      exact ⟨y, hy, x, hx, rfl, rfl⟩

theorem pairwise_allCoords (H W : ℕ) : (allCoords H W).Pairwise rmLt := by
  induction H with
  | zero => simp [allCoords]
  | succ n ih =>
    have : allCoords (n + 1) W = allCoords n W ++ (List.range W).map (fun x => (n, x)) := by
      simp [allCoords, List.range_succ]
    rw [this]
    refine List.pairwise_append.2 ⟨ih, ?_, ?_⟩
    · rw [List.pairwise_map]
      exact (List.pairwise_lt_range W).imp fun h => Or.inr ⟨rfl, h⟩
    · intro a ha b hb
      rcases List.mem_map.1 hb with ⟨xb, _, rfl⟩
      exact Or.inl ((mem_allCoords n W a).1 ha).1

theorem nodup_allCoords (H W : ℕ) : (allCoords H W).Nodup :=
  (pairwise_allCoords H W).imp fun h => by
    rintro rfl
    rcases h with h | ⟨_, h⟩ <;> omega

theorem mem_neighborList (x y H W : ℕ) (c : ℕ × ℕ) :
    c ∈ neighborList x y H W ↔
      c.1 < H ∧ c.2 < W ∧ |(c.1 : ℤ) - y| ≤ 1 ∧ |(c.2 : ℤ) - x| ≤ 1 ∧
        ¬(c.1 = y ∧ c.2 = x) := by
  rw [neighborList, List.mem_filter, mem_allCoords, get_neighbors_iff]
  push_cast
  tauto

theorem nodup_neighborList (x y H W : ℕ) : (neighborList x y H W).Nodup :=
  (nodup_allCoords H W).sublist (List.filter_sublist _)

theorem mem_burnedCoords (H W : ℕ) (raster : ℕ × ℕ → ℤ) (c : ℕ × ℕ) :
    c ∈ burnedCoords H W raster ↔ (c.1 < H ∧ c.2 < W) ∧ 0 < raster c := by
  rw [burnedCoords, List.mem_filter, mem_allCoords]
  simp

theorem nodup_burnedCoords (H W : ℕ) (raster : ℕ × ℕ → ℤ) :
    (burnedCoords H W raster).Nodup :=
  (nodup_allCoords H W).sublist (List.filter_sublist _)

theorem pairwise_burnedCoords (H W : ℕ) (raster : ℕ × ℕ → ℤ) :
    (burnedCoords H W raster).Pairwise rmLt :=
  (pairwise_allCoords H W).sublist (List.filter_sublist _)

theorem neighborIdSum_pos (H W : ℕ) (s : FFState) (z : ℕ × ℕ) :
    0 < neighborIdSum H W s z ↔ ∃ q ∈ neighborList z.2 z.1 H W, 0 < s.fireId q := by
  unfold neighborIdSum
  constructor
  · intro h
    by_contra hno
    push_neg at hno
    have hall : ∀ a ∈ (neighborList z.2 z.1 H W).map s.fireId, a = 0 := by
      intro a ha
      rcases List.mem_map.1 ha with ⟨q, hq, rfl⟩
      exact Nat.le_zero.1 (hno q hq)
    rw [List.sum_eq_zero_iff.2 hall] at h
    exact absurd h (lt_irrefl 0)
  · rintro ⟨q, hq, hpos⟩
    exact lt_of_lt_of_le hpos
      (List.single_le_sum (fun a _ => Nat.zero_le a) _ (List.mem_map_of_mem s.fireId hq))

theorem mem_matchingOf (H W : ℕ) (raster : ℕ × ℕ → ℤ) (cutOff : ℤ) (s : FFState)
    (z q : ℕ × ℕ) :
    q ∈ matchingOf H W raster cutOff s z ↔
      q ∈ neighborList z.2 z.1 H W ∧ |s.burnDate q - raster z| ≤ cutOff := by
  simp [matchingOf, List.mem_filter]

theorem mem_currentIdsOf (H W : ℕ) (raster : ℕ × ℕ → ℤ) (cutOff : ℤ) (s : FFState)
    (z : ℕ × ℕ) (a : ℕ) :
    a ∈ currentIdsOf H W raster cutOff s z ↔
      ∃ q ∈ matchingOf H W raster cutOff s z, s.fireId q = a := by
  simp [currentIdsOf, List.mem_dedup, List.mem_map]

theorem currentIdsOf_ne_nil (H W : ℕ) (raster : ℕ × ℕ → ℤ) (cutOff : ℤ) (s : FFState)
    (z : ℕ × ℕ) (h : matchingOf H W raster cutOff s z ≠ []) :
    currentIdsOf H W raster cutOff s z ≠ [] := by
  simpa [currentIdsOf, List.dedup_eq_nil, List.map_eq_nil_iff] using h

theorem nodup_matchingOf (H W : ℕ) (raster : ℕ × ℕ → ℤ) (cutOff : ℤ) (s : FFState)
    (z : ℕ × ℕ) : (matchingOf H W raster cutOff s z).Nodup :=
  (nodup_neighborList z.2 z.1 H W).sublist (List.filter_sublist _)

theorem UInv_step (H W : ℕ) (raster : ℕ × ℕ → ℤ) (cutOff : ℤ) (P : List (ℕ × ℕ))
    (s : FFState) (z : ℕ × ℕ) (hz : z ∉ P) (h : UInv raster P s) :
    UInv raster (P ++ [z]) (step H W raster cutOff s z) := by
  obtain ⟨h1, h2, h3, h4⟩ := h
  have hzid : s.fireId z = 0 := h1 z hz
  have hmem : ∀ c : ℕ × ℕ, c ∈ P ++ [z] ↔ c ∈ P ∨ c = z := by simp
  have hnotmem : ∀ c : ℕ × ℕ, c ∉ P ++ [z] ↔ c ∉ P ∧ c ≠ z := by
    intro c
    rw [hmem]
    tauto
  unfold step
  split_ifs with hc1 hc2 hc3 hc4 hc5
  · omega
  · refine ⟨?_, ?_, ?_, ?_⟩
    · intro c hc
      rw [hnotmem] at hc
      dsimp only
      rw [setCell_other _ _ _ _ hc.2]
      exact h1 c hc.1
    · intro c hc
      rw [hnotmem] at hc
      dsimp only
      rw [setCell_other _ _ _ _ hc.2]
      exact h2 c hc.1
    · intro c hc
      dsimp only
      rcases (hmem c).1 hc with hcP | rfl
      · rw [setCell_other _ _ _ _ (show c ≠ z from fun he => hz (he ▸ hcP))]
        exact h3 c hcP
      · exact setCell_same _ _ _
    · exact le_trans h4 (Nat.le_succ _)
  · refine ⟨?_, ?_, ?_, ?_⟩
    · intro c hc
      rw [hnotmem] at hc
      dsimp only
      rw [setCell_other _ _ _ _ hc.2]
      exact h1 c hc.1
    · intro c hc
      rw [hnotmem] at hc
      dsimp only
      rw [setCell_other _ _ _ _ hc.2]
      exact h2 c hc.1
    · intro c hc
      dsimp only
      rcases (hmem c).1 hc with hcP | rfl
      · rw [setCell_other _ _ _ _ (show c ≠ z from fun he => hz (he ▸ hcP))]
        exact h3 c hcP
      · exact setCell_same _ _ _
    · exact h4
  · refine ⟨?_, ?_, ?_, ?_⟩
    · intro c hc
      rw [hnotmem] at hc
      dsimp only
      rw [setCell_other _ _ _ _ hc.2, h1 c hc.1]
      by_cases h0 : (0 : ℕ) ∈ currentIdsOf H W raster cutOff s z
      · simp [h0, minId_eq_zero_of_mem h0]
      · simp [h0]
    · intro c hc
      rw [hnotmem] at hc
      dsimp only
      rw [setCell_other _ _ _ _ hc.2]
      exact h2 c hc.1
    · intro c hc
      dsimp only
      rcases (hmem c).1 hc with hcP | rfl
      · rw [setCell_other _ _ _ _ (show c ≠ z from fun he => hz (he ▸ hcP))]
        exact h3 c hcP
      · exact setCell_same _ _ _
    · exact h4
  · exfalso
    have hl : 0 < (matchingOf H W raster cutOff s z).length := hc3.2
    have hne : matchingOf H W raster cutOff s z ≠ [] := by
      intro hnil
      rw [hnil] at hl
      exact absurd hl (lt_irrefl 0)
    have hidpos : 0 < (currentIdsOf H W raster cutOff s z).length :=
      List.length_pos.2 (currentIdsOf_ne_nil H W raster cutOff s z hne)
    push_neg at hc4
    have hlt : 1 < (matchingOf H W raster cutOff s z).length := by omega
    have hne1 := hc4.2 hlt
    push_neg at hc5
    have := hc5 hlt
    omega
  · exfalso
    push_neg at hc1
    exact hc3 ⟨hc1.1, Nat.pos_of_ne_zero (hc1.2 hc1.1)⟩

theorem UInv_foldl (H W : ℕ) (raster : ℕ × ℕ → ℤ) (cutOff : ℤ) :
    ∀ (L P : List (ℕ × ℕ)) (s : FFState), UInv raster P s → (∀ z ∈ L, z ∉ P) →
      L.Nodup → UInv raster (P ++ L) (L.foldl (step H W raster cutOff) s)
  | [], P, s, h, _, _ => by simpa using h
  | z :: L', P, s, h, hdisj, hnd => by
    rw [List.foldl_cons]
    have hstep := UInv_step H W raster cutOff P s z (hdisj z (List.mem_cons_self z L')) h
    have hnd' := List.nodup_cons.1 hnd
    have hrec := UInv_foldl H W raster cutOff L' (P ++ [z])
      (step H W raster cutOff s z) hstep
      (fun z' hz' => by
        simp only [List.mem_append, List.mem_singleton]
        rintro (hzP | rfl)
        · exact hdisj z' (List.mem_cons_of_mem z hz') hzP
        · exact hnd'.1 hz')
      hnd'.2
    rw [List.append_assoc, List.singleton_append] at hrec
    exact hrec

theorem UInv_prefix (H W : ℕ) (raster : ℕ × ℕ → ℤ) (cutOff : ℤ) (i : ℕ) :
    UInv raster ((burnedCoords H W raster).take i)
      (((burnedCoords H W raster).take i).foldl (step H W raster cutOff) initState) := by
  have h0 : UInv raster [] initState :=
    ⟨fun _ _ => rfl, fun _ _ => rfl, fun c hc => absurd hc (List.not_mem_nil c), le_refl 1⟩
  have := UInv_foldl H W raster cutOff ((burnedCoords H W raster).take i) [] initState h0
    (by simp) ((nodup_burnedCoords H W raster).sublist (List.take_sublist i _))
  simpa using this

theorem UInv_run (H W : ℕ) (raster : ℕ × ℕ → ℤ) (cutOff : ℤ) :
    UInv raster (burnedCoords H W raster) (run H W raster cutOff) := by
  have h0 : UInv raster [] initState :=
    ⟨fun _ _ => rfl, fun _ _ => rfl, fun c hc => absurd hc (List.not_mem_nil c), le_refl 1⟩
  have := UInv_foldl H W raster cutOff (burnedCoords H W raster) [] initState h0
    (by simp) (nodup_burnedCoords H W raster)
  simpa [run] using this

theorem get_not_mem_take {α : Type} {l : List α} (hnd : l.Nodup) (i : ℕ) (hi : i < l.length) :
    l.get ⟨i, hi⟩ ∉ l.take i := by
  intro hmem
  rcases List.mem_iff_get.1 hmem with ⟨⟨j, hj⟩, hjeq⟩
  have hj2 : j < i := by
    rw [List.length_take] at hj
    omega
  have hj3 : j < l.length := by
    rw [List.length_take] at hj
    omega
  have heq : l.get ⟨j, hj3⟩ = l.get ⟨i, hi⟩ := by
    rw [← hjeq]
    simp [List.getElem_take]
  have hji : j = i := by
    simpa using (List.Nodup.get_inj_iff hnd).1 heq
  omega

/- Claim theorems. -/

/-- Claim C6: for an in-bounds center and radius at least 1, _get_neighbors
marks exactly the in-bounds coordinates within Chebyshev distance
`distance` of the center, excluding the center itself, with no wraparound;
and on a 3 by 3 grid with radius 1 the neighbor counts in row-major order
are [3,5,3,5,8,5,3,5,3]. -/
theorem C6_neighbor_window :
    (∀ (H W x y distance : ℕ) (c : ℕ × ℕ), y < H → x < W → 1 ≤ distance →
      (get_neighbors x y H W distance c = true ↔
        c.1 < H ∧ c.2 < W ∧ |(c.1 : ℤ) - y| ≤ distance ∧ |(c.2 : ℤ) - x| ≤ distance ∧
          ¬(c.1 = y ∧ c.2 = x))) ∧
    ((List.range 3).flatMap (fun i => (List.range 3).map fun j => (neighborList i j 3 3).length)
      = [3, 5, 3, 5, 8, 5, 3, 5, 3]) := by
  refine ⟨?_, by decide⟩
  intro H W x y distance c _ _ _
  exact get_neighbors_iff x y H W distance c

/-- Witness for C6 at a concrete instance. -/
theorem C6_neighbor_window_witness :
    get_neighbors 1 1 3 3 1 (0, 0) = true ↔
      0 < 3 ∧ 0 < 3 ∧ |(0 : ℤ) - 1| ≤ 1 ∧ |(0 : ℤ) - 1| ≤ 1 ∧ ¬(0 = 1 ∧ 0 = 1) :=
  C6_neighbor_window.1 3 3 1 1 1 (0, 0) (by decide) (by decide) (by decide)

/-- Claim C5: a cell holding 0 in the input raster is 0 in both output grids
of run, for every cutoff. -/
theorem C5_unburned_stays_zero (H W : ℕ) (raster : ℕ × ℕ → ℤ) (cutOff : ℤ) (c : ℕ × ℕ)
    (hy : c.1 < H) (hx : c.2 < W) (h0 : raster c = 0) :
    (run H W raster cutOff).fireId c = 0 ∧ (run H W raster cutOff).burnDate c = 0 := by
  obtain ⟨u1, u2, _, _⟩ := UInv_run H W raster cutOff
  have hnot : c ∉ burnedCoords H W raster := by
    intro hmem
    have := ((mem_burnedCoords H W raster c).1 hmem).2
    rw [h0] at this
    exact absurd this (lt_irrefl 0)
  exact ⟨u1 c hnot, u2 c hnot⟩

/-- Witness for C5 at a concrete instance. -/
theorem C5_unburned_stays_zero_witness :
    (run 2 2 rasterMergeZero 2).fireId (1, 1) = 0 ∧
      (run 2 2 rasterMergeZero 2).burnDate (1, 1) = 0 :=
  C5_unburned_stays_zero 2 2 rasterMergeZero 2 (1, 1) (by decide) (by decide) (by decide)

/-- Claim C10: for rasters with entries in [0, 366], the canonical date grid
returned by run equals the input raster elementwise. -/
theorem C10_dates_equal_input (H W : ℕ) (raster : ℕ × ℕ → ℤ) (cutOff : ℤ) (c : ℕ × ℕ)
    (hy : c.1 < H) (hx : c.2 < W) (hlo : 0 ≤ raster c) (hhi : raster c ≤ 366) :
    (run H W raster cutOff).burnDate c = raster c := by
  obtain ⟨_, u2, u3, _⟩ := UInv_run H W raster cutOff
  by_cases hpos : 0 < raster c
  · exact u3 c ((mem_burnedCoords H W raster c).2 ⟨⟨hy, hx⟩, hpos⟩)
  · have h0 : raster c = 0 := le_antisymm (not_lt.1 hpos) hlo
    have hnot : c ∉ burnedCoords H W raster := by
      intro hmem
      have := ((mem_burnedCoords H W raster c).1 hmem).2
      rw [h0] at this
      exact absurd this (lt_irrefl 0)
    rw [u2 c hnot, h0]

/-- Witness for C10 at a concrete instance. -/
theorem C10_dates_equal_input_witness :
    (run 1 2 rasterPair 5).burnDate (0, 1) = rasterPair (0, 1) :=
  C10_dates_equal_input 1 2 rasterPair 5 (0, 1) (by decide) (by decide) (by decide) (by decide)

/-- Claim C4 counterexample: on the 1 by 2 raster [1, 2] with cutoff 5 the
two pixels form one event with id 1, processed in scan order
[(0,0), (0,1)]; the most recently processed pixel of that event is (0,1)
with date 2, yet cell (0,0) holds canonical date 1 (its own input date),
not 2. -/
theorem C4_counterexample :
    burnedCoords 1 2 rasterPair = [(0, 0), (0, 1)] ∧
    (run 1 2 rasterPair 5).fireId (0, 0) = 1 ∧
    (run 1 2 rasterPair 5).fireId (0, 1) = 1 ∧
    (run 1 2 rasterPair 5).burnDate (0, 1) = 2 ∧
    (run 1 2 rasterPair 5).burnDate (0, 0) = 1 ∧ ((1 : ℤ) ≠ 2) := by decide

/-- Claim C4 (amended): at every point during the scan, and hence in the
final output, every cell whose fire id is nonzero holds its OWN input burn
date in the canonical date grid; the date is written when the cell itself is
scanned and merges never modify it. -/
theorem C4_amended_own_date (H W : ℕ) (raster : ℕ × ℕ → ℤ) (cutOff : ℤ) (i : ℕ)
    (c : ℕ × ℕ)
    (hid : (((burnedCoords H W raster).take i).foldl (step H W raster cutOff)
      initState).fireId c ≠ 0) :
    (((burnedCoords H W raster).take i).foldl (step H W raster cutOff)
      initState).burnDate c = raster c := by
  obtain ⟨u1, _, u3, _⟩ := UInv_prefix H W raster cutOff i
  by_cases hmem : c ∈ (burnedCoords H W raster).take i
  · exact u3 c hmem
  · exact absurd (u1 c hmem) hid

/-- Witness for the amended C4 at a concrete instance. -/
theorem C4_amended_own_date_witness :
    (((burnedCoords 1 2 rasterPair).take 2).foldl (step 1 2 rasterPair 5)
      initState).burnDate (0, 0) = rasterPair (0, 0) :=
  C4_amended_own_date 1 2 rasterPair 5 2 (0, 0) (by decide)

/-- Claim C9: the defensive skip branch of Case A is unreachable: when the
i-th burned coordinate is about to be processed (after folding the scan step
over the first i burned coordinates), its fire id is still 0, because merges
map the id 0 to min(matched_ids) = 0 whenever 0 is among the matched ids and
never touch zero cells otherwise. -/
theorem C9_guard_unreachable (H W : ℕ) (raster : ℕ × ℕ → ℤ) (cutOff : ℤ) (i : ℕ)
    (hi : i < (burnedCoords H W raster).length) :
    (((burnedCoords H W raster).take i).foldl (step H W raster cutOff)
      initState).fireId ((burnedCoords H W raster).get ⟨i, hi⟩) = 0 := by
  obtain ⟨u1, _, _, _⟩ := UInv_prefix H W raster cutOff i
  exact u1 _ (get_not_mem_take (nodup_burnedCoords H W raster) i hi)

/-- Witness for C9 at a concrete instance. -/
theorem C9_guard_unreachable_witness :
    (((burnedCoords 1 2 rasterPair).take 1).foldl (step 1 2 rasterPair 5)
      initState).fireId ((burnedCoords 1 2 rasterPair).get ⟨1, by decide⟩) = 0 :=
  C9_guard_unreachable 1 2 rasterPair 5 1 (by decide)

/-- Claim C8 counterexample: with lower = 1 and upper = 366 the boundary
value 1 lies in the closed interval [lower, upper], but isolate_burned_pixels
(the version of floodfill/utils.py and floodfill/__init__.py, the copy the
package exports and the tests exercise) zeroes it instead of keeping it. -/
theorem C8_counterexample :
    (1 : ℤ) ≤ 1 ∧ (1 : ℤ) ≤ 366 ∧
    isolate_burned_pixels (fun _ => 1) 366 1 (0, 0) = 0 ∧ ((0 : ℤ) ≠ 1) := by decide

/-- Claim C8 (amended): the package version (utils.py) keeps exactly the
values strictly inside the open interval (lower, upper) and zeroes the rest,
boundary values included; the standalone script version keeps exactly the
closed interval [lower, upper]. -/
theorem C8_amended (array : ℕ × ℕ → ℤ) (upper lower : ℤ) (c : ℕ × ℕ) :
    isolate_burned_pixels array upper lower c
      = (if lower < array c ∧ array c < upper then array c else 0) ∧
    isolate_burned_pixels_script array upper lower c
      = (if lower ≤ array c ∧ array c ≤ upper then array c else 0) := by
  unfold isolate_burned_pixels isolate_burned_pixels_script
  constructor <;> split_ifs <;> omega

theorem matchingOf_nil_of_neg (H W : ℕ) (raster : ℕ × ℕ → ℤ) (cutOff : ℤ) (s : FFState)
    (z : ℕ × ℕ) (hcut : cutOff < 0) : matchingOf H W raster cutOff s z = [] := by
  rw [matchingOf, List.filter_eq_nil_iff]
  intro q _
  simp only [decide_eq_true_eq]
  intro habs
  have := abs_nonneg (s.burnDate q - raster z)
  omega

theorem NInv_step (H W : ℕ) (raster : ℕ × ℕ → ℤ) (cutOff : ℤ) (P : List (ℕ × ℕ))
    (s : FFState) (z : ℕ × ℕ) (hcut : cutOff < 0) (hz : z ∉ P) (h : NInv P s) :
    NInv (P ++ [z]) (step H W raster cutOff s z) := by
  obtain ⟨h1, h2, h3⟩ := h
  have hzid : s.fireId z = 0 := h3 z hz
  have hmempty : matchingOf H W raster cutOff s z = [] :=
    matchingOf_nil_of_neg H W raster cutOff s z hcut
  have hcond : ¬ 0 < neighborIdSum H W s z ∨
      (0 < neighborIdSum H W s z ∧ (matchingOf H W raster cutOff s z).length = 0) := by
    by_cases hpos : 0 < neighborIdSum H W s z
    · exact Or.inr ⟨hpos, by rw [hmempty]; rfl⟩
    · exact Or.inl hpos
  unfold step
  rw [if_pos hcond, if_neg (by omega : ¬ 0 < s.fireId z)]
  refine ⟨?_, ?_, ?_⟩
  · dsimp only
    rw [h1]
    simp
  · intro i hi
    dsimp only
    have hi2 : i < P.length + 1 := by
      have : (P ++ [z]).length = P.length + 1 := by simp
      omega
    by_cases hilt : i < P.length
    · have hget : (P ++ [z]).get ⟨i, hi⟩ = P.get ⟨i, hilt⟩ := by
        simp [List.getElem_append_left, hilt]
      rw [hget]
      have hne : P.get ⟨i, hilt⟩ ≠ z := by
        intro he
        exact hz (he ▸ P.get_mem i hilt)
      rw [setCell_other _ _ _ _ hne]
      exact h2 i hilt
    · have hieq : i = P.length := by omega
      subst hieq
      have hget : (P ++ [z]).get ⟨P.length, hi⟩ = z := by simp
      rw [hget, setCell_same, h1]
  · intro c hc
    dsimp only
    have hc2 : c ∉ P ∧ c ≠ z := by
      constructor
      · intro hcp
        exact hc (List.mem_append.2 (Or.inl hcp))
      · intro he
        exact hc (List.mem_append.2 (Or.inr (by simp [he])))
    rw [setCell_other _ _ _ _ hc2.2]
    exact h3 c hc2.1

theorem NInv_foldl (H W : ℕ) (raster : ℕ × ℕ → ℤ) (cutOff : ℤ) (hcut : cutOff < 0) :
    ∀ (L P : List (ℕ × ℕ)) (s : FFState), NInv P s → (∀ z ∈ L, z ∉ P) →
      L.Nodup → NInv (P ++ L) (L.foldl (step H W raster cutOff) s)
  | [], P, s, h, _, _ => by simpa using h
  | z :: L', P, s, h, hdisj, hnd => by
    rw [List.foldl_cons]
    have hstep := NInv_step H W raster cutOff P s z hcut
      (hdisj z (List.mem_cons_self z L')) h
    have hnd' := List.nodup_cons.1 hnd
    have hrec := NInv_foldl H W raster cutOff hcut L' (P ++ [z])
      (step H W raster cutOff s z) hstep
      (fun z' hz' => by
        simp only [List.mem_append, List.mem_singleton]
        rintro (hzP | rfl)
        · exact hdisj z' (List.mem_cons_of_mem z hz') hzP
        · exact hnd'.1 hz')
      hnd'.2
    rw [List.append_assoc, List.singleton_append] at hrec
    exact hrec

/-- Claim C7 counterexample: run accepts a negative cutoff without any
InvalidInput failure; the scan runs and mutates the output grids, labeling
the burned pixels. -/
theorem C7_counterexample :
    (run 1 2 rasterAdoptZero (-1)).fireId (0, 0) = 1 ∧
    (run 1 2 rasterAdoptZero (-1)).fireId (0, 1) = 2 ∧
    (run 1 2 rasterAdoptZero (-1)).counter = 3 := by decide

/-- Claim C7 (amended): run performs no input validation at all.  A negative
cutoff is accepted and the scan still runs to completion: no neighbor can
then satisfy the cutoff test, so the i-th burned pixel in scan order
receives the fresh identifier i+1 and the counter finishes at the number of
burned pixels plus one.  (A non-rectangular grid is not expressible as a
numpy 2-D array, and distance is not a parameter of run.) -/
theorem C7_amended_no_validation (H W : ℕ) (raster : ℕ × ℕ → ℤ) (cutOff : ℤ)
    (hcut : cutOff < 0) :
    (run H W raster cutOff).counter = (burnedCoords H W raster).length + 1 ∧
    ∀ (i : ℕ) (hi : i < (burnedCoords H W raster).length),
      (run H W raster cutOff).fireId ((burnedCoords H W raster).get ⟨i, hi⟩) = i + 1 := by
  have h0 : NInv [] initState :=
    ⟨rfl, fun i hi => absurd hi (by simp), fun _ _ => rfl⟩
  have := NInv_foldl H W raster cutOff hcut (burnedCoords H W raster) [] initState h0
    (by simp) (nodup_burnedCoords H W raster)
  rw [List.nil_append] at this
  exact ⟨this.1, this.2.1⟩

/-- Witness for the amended C7 at a concrete instance. -/
theorem C7_amended_no_validation_witness :
    (run 1 2 rasterAdoptZero (-1)).counter = (burnedCoords 1 2 rasterAdoptZero).length + 1 ∧
    (run 1 2 rasterAdoptZero (-1)).fireId ((burnedCoords 1 2 rasterAdoptZero).get
      ⟨1, by decide⟩) = 2 :=
  ⟨(C7_amended_no_validation 1 2 rasterAdoptZero (-1) (by decide)).1,
   (C7_amended_no_validation 1 2 rasterAdoptZero (-1) (by decide)).2 1 (by decide)⟩

/- Machinery for rasters with exactly two burned pixels. -/

theorem rmLt_ne {p q : ℕ × ℕ} (h : rmLt p q) : p ≠ q := by
  intro he
  subst he
  unfold rmLt at h
  omega

theorem rmLt_asymm {p q : ℕ × ℕ} (h : rmLt p q) : ¬ rmLt q p := by
  unfold rmLt at *
  omega

theorem pairwise_pair_eq {p1 p2 : ℕ × ℕ} {l : List (ℕ × ℕ)} (hpw : l.Pairwise rmLt)
    (hall : ∀ c ∈ l, c = p1 ∨ c = p2) (hm1 : p1 ∈ l) (hm2 : p2 ∈ l)
    (h12 : rmLt p1 p2) : l = [p1, p2] := by
  cases l with
  | nil => exact absurd hm1 (List.not_mem_nil p1)
  | cons a t =>
    cases t with
    | nil =>
      exfalso
      have e1 : p1 = a := by simpa using hm1
      have e2 : p2 = a := by simpa using hm2
      rw [e1, e2] at h12
      exact absurd rfl (rmLt_ne h12)
    | cons b t' =>
      have hab : rmLt a b := (List.pairwise_cons.1 hpw).1 b (by simp)
      have ha := hall a (by simp)
      have hb := hall b (by simp)
      have hea : a = p1 := by
        rcases ha with h | h
        · exact h
        · rcases hb with h' | h'
          · rw [h, h'] at hab
            exact absurd hab (rmLt_asymm h12)
          · rw [h, h'] at hab
            exact absurd rfl (rmLt_ne hab)
      have heb : b = p2 := by
        rcases hb with h' | h'
        · rw [hea] at hab
          rw [h'] at hab
          exact absurd rfl (rmLt_ne hab)
        · exact h'
      subst hea
      subst heb
      cases t' with
      | nil => rfl
      | cons c t'' =>
        exfalso
        have hc := hall c (by simp)
        have h1c : rmLt a c := (List.pairwise_cons.1 hpw).1 c (by simp)
        have h2c : rmLt b c := (List.pairwise_cons.1 (List.pairwise_cons.1 hpw).2).1 c (by simp)
        rcases hc with h | h
        · rw [h] at h1c
          exact absurd rfl (rmLt_ne h1c)
        · rw [h] at h2c
          exact absurd rfl (rmLt_ne h2c)

theorem filter_eq_single {α : Type} (p : α → Bool) :
    ∀ (l : List α) (a : α), l.Nodup → a ∈ l → (∀ b ∈ l, p b = true ↔ b = a) →
      l.filter p = [a]
  | [], a, _, ha, _ => absurd ha (List.not_mem_nil a)
  | c :: t, a, hnd, ha, hp => by
    have hnd' := List.nodup_cons.1 hnd
    by_cases hca : c = a
    · subst hca
      rw [List.filter_cons_of_pos ((hp c (by simp)).2 rfl)]
      have ht : t.filter p = [] := by
        rw [List.filter_eq_nil_iff]
        intro b hb hpb
        have hbc : b = c := (hp b (List.mem_cons_of_mem c hb)).1 hpb
        exact hnd'.1 (hbc ▸ hb)
      rw [ht]
    · have hpc : ¬ p c = true := by
        intro hpc
        exact hca ((hp c (by simp)).1 hpc)
      rw [List.filter_cons_of_neg (by simpa using hpc)]
      have ha' : a ∈ t := by
        rcases List.mem_cons.1 ha with h | h
        · exact absurd h.symm hca
        · exact h
      exact filter_eq_single p t a hnd'.2 ha' (fun b hb => hp b (List.mem_cons_of_mem c hb))

theorem burnedCoords_pair (H W : ℕ) (raster : ℕ × ℕ → ℤ) (p1 p2 : ℕ × ℕ)
    (h1 : p1.1 < H ∧ p1.2 < W) (h2 : p2.1 < H ∧ p2.2 < W) (horder : rmLt p1 p2)
    (hburn : ∀ c ∈ allCoords H W, 0 < raster c ↔ c = p1 ∨ c = p2) :
    burnedCoords H W raster = [p1, p2] := by
  refine pairwise_pair_eq (pairwise_burnedCoords H W raster) ?_ ?_ ?_ horder
  · intro c hc
    have hm := (mem_burnedCoords H W raster c).1 hc
    exact (hburn c ((mem_allCoords H W c).2 hm.1)).1 hm.2
  · exact (mem_burnedCoords H W raster p1).2
      ⟨h1, (hburn p1 ((mem_allCoords H W p1).2 h1)).2 (Or.inl rfl)⟩
  · exact (mem_burnedCoords H W raster p2).2
      ⟨h2, (hburn p2 ((mem_allCoords H W p2).2 h2)).2 (Or.inr rfl)⟩

theorem neighborIdSum_init (H W : ℕ) (z : ℕ × ℕ) : neighborIdSum H W initState z = 0 := by
  rw [neighborIdSum]
  apply List.sum_eq_zero_iff.2
  intro a ha
  rcases List.mem_map.1 ha with ⟨q, _, rfl⟩
  rfl

/-- Processing the very first pixel always takes the fresh-fire branch and
assigns id 1. -/
theorem step_init (H W : ℕ) (raster : ℕ × ℕ → ℤ) (cutOff : ℤ) (z : ℕ × ℕ) :
    step H W raster cutOff initState z =
      ⟨setCell (fun _ => 0) z 1, setCell (fun _ => 0) z (raster z), 2⟩ := by
  unfold step
  rw [if_pos (Or.inl (by rw [neighborIdSum_init]; omega))]
  rw [if_neg (by simp [initState])]
  rfl

/-- When the matching neighborhood is exactly one already-labeled cell q,
step adopts the id of q. -/
theorem step_adopt_single (H W : ℕ) (raster : ℕ × ℕ → ℤ) (cutOff : ℤ) (s : FFState)
    (z q : ℕ × ℕ) (hmatch : matchingOf H W raster cutOff s z = [q])
    (hq : 0 < s.fireId q) (hqnb : q ∈ neighborList z.2 z.1 H W) :
    step H W raster cutOff s z =
      ⟨setCell s.fireId z (s.fireId q), setCell s.burnDate z (raster z), s.counter⟩ := by
  have hpos : 0 < neighborIdSum H W s z := (neighborIdSum_pos H W s z).2 ⟨q, hqnb, hq⟩
  unfold step
  rw [if_neg, if_pos, if_pos]
  · have hids : currentIdsOf H W raster cutOff s z = [s.fireId q] := by
      rw [currentIdsOf, hmatch]
      simp
    rw [hids]
    rfl
  · exact Or.inl (by rw [hmatch]; rfl)
  · exact ⟨hpos, by rw [hmatch]; simp⟩
  · intro hcond
    rcases hcond with h | ⟨_, hlen⟩
    · exact h hpos
    · rw [hmatch] at hlen
      simp at hlen

/-- When no neighbor matches and the pixel itself is still unlabeled, step
starts a new fire. -/
theorem step_newfire (H W : ℕ) (raster : ℕ × ℕ → ℤ) (cutOff : ℤ) (s : FFState)
    (z : ℕ × ℕ) (hmatch : matchingOf H W raster cutOff s z = [])
    (hzid : s.fireId z = 0) :
    step H W raster cutOff s z =
      ⟨setCell s.fireId z s.counter, setCell s.burnDate z (raster z), s.counter + 1⟩ := by
  unfold step
  rw [if_pos, if_neg (by omega)]
  by_cases hpos : 0 < neighborIdSum H W s z
  · exact Or.inr ⟨hpos, by rw [hmatch]; rfl⟩
  · exact Or.inl hpos

/-- Claim C2 counterexample: the 2 by 2 raster [[1, 2], [0, 0]] with cutoff 2
holds exactly two burned pixels, 8-adjacent, with date difference 1 ≤ 2;
when (0,1) is processed, its unlabeled zero-date neighbors (1,0) and (1,1)
also pass the cutoff test (2 ≤ 2), so the branch merges ids {0, 1} to their
minimum 0 and both pixels finish with id 0 instead of a shared nonzero id. -/
theorem C2_counterexample :
    (∀ c ∈ allCoords 2 2, 0 < rasterMergeZero c ↔ c = (0, 0) ∨ c = (0, 1)) ∧
    |rasterMergeZero (0, 0) - rasterMergeZero (0, 1)| ≤ 2 ∧
    (run 2 2 rasterMergeZero 2).fireId (0, 0) = 0 ∧
    (run 2 2 rasterMergeZero 2).fireId (0, 1) = 0 := by decide

/-- Claim C2 (amended): with exactly two burned pixels, 8-adjacent, whose
date difference is at most the cutoff, and whose later pixel (in row-major
order) has a date exceeding the cutoff (so that the unlabeled-neighbor
quirk cannot fire), both pixels receive the identifier 1 assigned to the
first pixel in scan order. -/
theorem C2_amended (H W : ℕ) (raster : ℕ × ℕ → ℤ) (cutOff : ℤ) (p1 p2 : ℕ × ℕ)
    (h1 : p1.1 < H ∧ p1.2 < W) (h2 : p2.1 < H ∧ p2.2 < W)
    (horder : rmLt p1 p2)
    (hburn : ∀ c ∈ allCoords H W, 0 < raster c ↔ c = p1 ∨ c = p2)
    (hadj : |(p1.1 : ℤ) - p2.1| ≤ 1 ∧ |(p1.2 : ℤ) - p2.2| ≤ 1)
    (hcut : |raster p1 - raster p2| ≤ cutOff)
    (hlate : cutOff < raster p2) :
    (run H W raster cutOff).fireId p1 = 1 ∧ (run H W raster cutOff).fireId p2 = 1 := by
  have hne : p1 ≠ p2 := rmLt_ne horder
  have hd2pos : 0 < raster p2 :=
    (hburn p2 ((mem_allCoords H W p2).2 h2)).2 (Or.inr rfl)
  have hrun : run H W raster cutOff
      = step H W raster cutOff (step H W raster cutOff initState p1) p2 := by
    rw [run, burnedCoords_pair H W raster p1 p2 h1 h2 horder hburn]
    rfl
  rw [hrun, step_init]
  have hmemnb : p1 ∈ neighborList p2.2 p2.1 H W := by
    rw [mem_neighborList]
    exact ⟨h1.1, h1.2, hadj.1, hadj.2, fun hh => hne (Prod.ext_iff.2 ⟨hh.1, hh.2⟩)⟩
  have hmatch : matchingOf H W raster cutOff
      ⟨setCell (fun _ => 0) p1 1, setCell (fun _ => 0) p1 (raster p1), 2⟩ p2 = [p1] := by
    rw [matchingOf]
    apply filter_eq_single _ _ _ (nodup_neighborList p2.2 p2.1 H W) hmemnb
    intro b hb
    dsimp only
    simp only [decide_eq_true_eq]
    constructor
    · intro hble
      by_contra hbne
      rw [setCell_other _ _ _ _ hbne] at hble
      rw [zero_sub, abs_neg, abs_of_pos hd2pos] at hble
      omega
    · intro hbe
      subst hbe
      rw [setCell_same]
      exact hcut
  rw [step_adopt_single H W raster cutOff _ p2 p1 hmatch (by simp [setCell]) hmemnb]
  constructor
  · dsimp only
    rw [setCell_other _ _ _ _ hne]
    simp [setCell]
  · dsimp only
    rw [setCell_same]
    simp [setCell]

/-- Witness for the amended C2 at a concrete instance. -/
theorem C2_amended_witness :
    (run 1 2 rasterPairLate 1).fireId (0, 0) = 1 ∧
    (run 1 2 rasterPairLate 1).fireId (0, 1) = 1 :=
  C2_amended 1 2 rasterPairLate 1 (0, 0) (0, 1) (by decide) (by decide) (by decide)
    (by decide) (by decide) (by decide) (by decide)

/-- Claim C3 counterexample: the 2 by 2 raster [[5, 1], [0, 0]] with cutoff 3
holds exactly two burned pixels, 8-adjacent, with date difference 4 > 3.
The claim promises two distinct nonzero identifiers, but when (0,1) is
processed its date 1 is at most the cutoff, so its unlabeled zero-date
neighbors (1,0) and (1,1) pass the cutoff test and their id 0 is adopted:
the second pixel finishes with id 0, which is not a nonzero identifier. -/
theorem C3_counterexample :
    (∀ c ∈ allCoords 2 2, 0 < rasterAdoptZero c ↔ c = (0, 0) ∨ c = (0, 1)) ∧
    3 < |rasterAdoptZero (0, 0) - rasterAdoptZero (0, 1)| ∧
    (run 2 2 rasterAdoptZero 3).fireId (0, 0) = 1 ∧
    (run 2 2 rasterAdoptZero 3).fireId (0, 1) = 0 := by decide

/-- Claim C3 (amended): with exactly two burned pixels, 8-adjacent, whose
date difference exceeds the cutoff, and whose later pixel has a date
exceeding the cutoff (so that the unlabeled-neighbor quirk cannot fire),
the pixels receive the two distinct nonzero identifiers 1 and 2. -/
theorem C3_amended (H W : ℕ) (raster : ℕ × ℕ → ℤ) (cutOff : ℤ) (p1 p2 : ℕ × ℕ)
    (h1 : p1.1 < H ∧ p1.2 < W) (h2 : p2.1 < H ∧ p2.2 < W)
    (horder : rmLt p1 p2)
    (hburn : ∀ c ∈ allCoords H W, 0 < raster c ↔ c = p1 ∨ c = p2)
    (hadj : |(p1.1 : ℤ) - p2.1| ≤ 1 ∧ |(p1.2 : ℤ) - p2.2| ≤ 1)
    (hcut : cutOff < |raster p1 - raster p2|)
    (hlate : cutOff < raster p2) :
    (run H W raster cutOff).fireId p1 = 1 ∧ (run H W raster cutOff).fireId p2 = 2 := by
  have hne : p1 ≠ p2 := rmLt_ne horder
  have hd2pos : 0 < raster p2 :=
    (hburn p2 ((mem_allCoords H W p2).2 h2)).2 (Or.inr rfl)
  have hrun : run H W raster cutOff
      = step H W raster cutOff (step H W raster cutOff initState p1) p2 := by
    rw [run, burnedCoords_pair H W raster p1 p2 h1 h2 horder hburn]
    rfl
  rw [hrun, step_init]
  have hmatch : matchingOf H W raster cutOff
      ⟨setCell (fun _ => 0) p1 1, setCell (fun _ => 0) p1 (raster p1), 2⟩ p2 = [] := by
    rw [matchingOf, List.filter_eq_nil_iff]
    intro b hb
    dsimp only
    simp only [decide_eq_true_eq]
    intro hble
    by_cases hbe : b = p1
    · subst hbe
      rw [setCell_same] at hble
      omega
    · rw [setCell_other _ _ _ _ hbe] at hble
      rw [zero_sub, abs_neg, abs_of_pos hd2pos] at hble
      omega
  rw [step_newfire H W raster cutOff _ p2 hmatch
    (by dsimp only; rw [setCell_other _ _ _ _ (Ne.symm hne)])]
  constructor
  · dsimp only
    rw [setCell_other _ _ _ _ hne]
    simp [setCell]
  · dsimp only
    rw [setCell_same]

/-- Witness for the amended C3 at a concrete instance. -/
theorem C3_amended_witness :
    (run 1 2 rasterPairLate 0).fireId (0, 0) = 1 ∧
    (run 1 2 rasterPairLate 0).fireId (0, 1) = 2 :=
  C3_amended 1 2 rasterPairLate 0 (0, 0) (0, 1) (by decide) (by decide) (by decide)
    (by decide) (by decide) (by decide) (by decide)

theorem sameEventStep_symm {H W : ℕ} {raster : ℕ × ℕ → ℤ} {cutOff : ℤ} {p q : ℕ × ℕ}
    (h : sameEventStep H W raster cutOff p q) : sameEventStep H W raster cutOff q p := by
  obtain ⟨h1, h2, h3, h4, h5, h6, h7, h8⟩ := h
  refine ⟨h2, h1, h4, h3, Ne.symm h5, ?_, ?_, ?_⟩
  · rw [abs_sub_comm]
    exact h6
  · rw [abs_sub_comm]
    exact h7
  · rw [abs_sub_comm]
    exact h8

theorem QInv_step (H W : ℕ) (raster : ℕ × ℕ → ℤ) (cutOff : ℤ)
    (hquirk : ∀ c ∈ allCoords H W, raster c = 0 ∨ cutOff < raster c)
    (P : List (ℕ × ℕ)) (s : FFState) (z : ℕ × ℕ) (hz : z ∉ P)
    (hzb : (z.1 < H ∧ z.2 < W) ∧ 0 < raster z)
    (h : QInv H W raster cutOff P s) :
    QInv H W raster cutOff (P ++ [z]) (step H W raster cutOff s z) := by
  obtain ⟨h0, h2, h3, h4, h5⟩ := h
  have hdz : cutOff < raster z := by
    rcases hquirk z ((mem_allCoords H W z).2 hzb.1) with hh | hh
    · omega
    · exact hh
  have hdzpos : 0 < raster z := hzb.2
  have hmem : ∀ c : ℕ × ℕ, c ∈ P ++ [z] ↔ c ∈ P ∨ c = z := by simp
  have hnotmem : ∀ c : ℕ × ℕ, c ∉ P ++ [z] ↔ c ∉ P ∧ c ≠ z := by
    intro c
    rw [hmem]
    tauto
  have hzid : s.fireId z = 0 := (h2 z hz).1
  -- every matching neighbor is already processed and carries a positive id
  have hM : ∀ q ∈ matchingOf H W raster cutOff s z, q ∈ P ∧ 0 < s.fireId q := by
    intro q hql
    rw [mem_matchingOf] at hql
    by_cases hqP : q ∈ P
    · exact ⟨hqP, (h3 q hqP).2⟩
    · exfalso
      have hbd : s.burnDate q = 0 := (h2 q hqP).2
      have := hql.2
      rw [hbd, zero_sub, abs_neg, abs_of_pos hdzpos] at this
      omega
  have hMids : ∀ a ∈ currentIdsOf H W raster cutOff s z, 0 < a := by
    intro a ha
    rcases (mem_currentIdsOf H W raster cutOff s z a).1 ha with ⟨q, hq, rfl⟩
    exact (hM q hq).2
  -- a processed cell linked to z is a matching neighbor of z
  have hadjm : ∀ p ∈ P, sameEventStep H W raster cutOff p z →
      p ∈ matchingOf H W raster cutOff s z := by
    intro p hp hlink
    obtain ⟨hpb, _, _, _, hne, hy1, hx1, hcut⟩ := hlink
    rw [mem_matchingOf]
    constructor
    · rw [mem_neighborList]
      exact ⟨hpb.1, hpb.2, hy1, hx1, fun hh => hne (Prod.ext_iff.2 ⟨hh.1, hh.2⟩)⟩
    · rw [(h3 p hp).1]
      exact hcut
  unfold step
  split_ifs with hc1 hc2 hc3 hc4 hc5
  · omega
  · -- Case A: fresh fire.  No processed cell can be linked to z here.
    have hnoadj : ∀ p ∈ P, ¬ sameEventStep H W raster cutOff p z := by
      intro p hp hlink
      have hpm := hadjm p hp hlink
      have hnb := (mem_matchingOf H W raster cutOff s z p).1 hpm
      have hpos : 0 < neighborIdSum H W s z :=
        (neighborIdSum_pos H W s z).2 ⟨p, hnb.1, (h3 p hp).2⟩
      have hlen : (matchingOf H W raster cutOff s z).length ≠ 0 := by
        intro hlen0
        rw [List.length_eq_zero] at hlen0
        rw [hlen0] at hpm
        exact List.not_mem_nil p hpm
      rcases hc1 with hh | hh
      · exact hh hpos
      · exact hlen hh.2
    refine ⟨?_, ?_, ?_, ?_, ?_⟩
    · intro c hc
      rcases (hmem c).1 hc with hcP | rfl
      · exact h0 c hcP
      · exact hzb
    · intro c hc
      rw [hnotmem] at hc
      dsimp only
      rw [setCell_other _ _ _ _ hc.2, setCell_other _ _ _ _ hc.2]
      exact h2 c hc.1
    · intro c hc
      dsimp only
      rcases (hmem c).1 hc with hcP | rfl
      · have hcz : c ≠ z := fun he => hz (he ▸ hcP)
        rw [setCell_other _ _ _ _ hcz, setCell_other _ _ _ _ hcz]
        exact h3 c hcP
      · rw [setCell_same, setCell_same]
        exact ⟨rfl, by omega⟩
    · exact le_trans h4 (Nat.le_succ _)
    · intro p q hp hq hlink
      dsimp only
      rcases (hmem p).1 hp with hpP | rfl
      · rcases (hmem q).1 hq with hqP | rfl
        · have hpz : p ≠ z := fun he => hz (he ▸ hpP)
          have hqz : q ≠ z := fun he => hz (he ▸ hqP)
          rw [setCell_other _ _ _ _ hpz, setCell_other _ _ _ _ hqz]
          exact h5 p q hpP hqP hlink
        · exact absurd hlink (hnoadj p hpP)
      · rcases (hmem q).1 hq with hqP | rfl
        · exact absurd (sameEventStep_symm hlink) (hnoadj q hqP)
        · rfl
  · -- Case B adopt: the single distinct matching id is taken over.
    have hlenpos : 0 < (matchingOf H W raster cutOff s z).length := hc3.2
    have hmne : matchingOf H W raster cutOff s z ≠ [] := by
      intro hnil
      rw [hnil] at hlenpos
      simp at hlenpos
    have hidsne : currentIdsOf H W raster cutOff s z ≠ [] :=
      currentIdsOf_ne_nil H W raster cutOff s z hmne
    have hvpos : 0 < minId (currentIdsOf H W raster cutOff s z) :=
      minId_pos hidsne hMids
    -- any processed cell linked to z carries exactly the adopted id
    have hkey : ∀ p ∈ P, sameEventStep H W raster cutOff p z →
        s.fireId p = minId (currentIdsOf H W raster cutOff s z) := by
      intro p hp hlink
      have hpm := hadjm p hp hlink
      rcases hc4 with hlen1 | ⟨_, hids1⟩
      · rcases List.length_eq_one.1 hlen1 with ⟨a, hae⟩
        have hpa : p = a := by
          rw [hae] at hpm
          simpa using hpm
        have hids : currentIdsOf H W raster cutOff s z = [s.fireId p] := by
          rw [currentIdsOf, hae, hpa]
          simp
        rw [hids]
        rfl
      · rcases List.length_eq_one.1 hids1 with ⟨w, hwe⟩
        have hpmem : s.fireId p ∈ currentIdsOf H W raster cutOff s z :=
          (mem_currentIdsOf H W raster cutOff s z (s.fireId p)).2 ⟨p, hpm, rfl⟩
        rw [hwe] at hpmem
        have hpw : s.fireId p = w := by simpa using hpmem
        rw [hwe, hpw]
        rfl
    refine ⟨?_, ?_, ?_, h4, ?_⟩
    · intro c hc
      rcases (hmem c).1 hc with hcP | rfl
      · exact h0 c hcP
      · exact hzb
    · intro c hc
      rw [hnotmem] at hc
      dsimp only
      rw [setCell_other _ _ _ _ hc.2, setCell_other _ _ _ _ hc.2]
      exact h2 c hc.1
    · intro c hc
      dsimp only
      rcases (hmem c).1 hc with hcP | rfl
      · have hcz : c ≠ z := fun he => hz (he ▸ hcP)
        rw [setCell_other _ _ _ _ hcz, setCell_other _ _ _ _ hcz]
        exact h3 c hcP
      · rw [setCell_same, setCell_same]
        exact ⟨rfl, hvpos⟩
    · intro p q hp hq hlink
      dsimp only
      rcases (hmem p).1 hp with hpP | hpz2
      · rcases (hmem q).1 hq with hqP | hqz2
        · have hpz : p ≠ z := fun he => hz (he ▸ hpP)
          have hqz : q ≠ z := fun he => hz (he ▸ hqP)
          rw [setCell_other _ _ _ _ hpz, setCell_other _ _ _ _ hqz]
          exact h5 p q hpP hqP hlink
        · rw [hqz2] at hlink ⊢
          have hpz : p ≠ z := fun he => hz (he ▸ hpP)
          rw [setCell_other _ _ _ _ hpz, setCell_same]
          exact hkey p hpP hlink
      · rw [hpz2] at hlink ⊢
        rcases (hmem q).1 hq with hqP | hqz2
        · have hqz : q ≠ z := fun he => hz (he ▸ hqP)
          rw [setCell_other _ _ _ _ hqz, setCell_same]
          exact (hkey q hqP (sameEventStep_symm hlink)).symm
        · rw [hqz2]
  · -- Case B merge: all matching ids are rewritten to their minimum.
    have hlenpos : 0 < (matchingOf H W raster cutOff s z).length := by omega
    have hmne : matchingOf H W raster cutOff s z ≠ [] := by
      intro hnil
      rw [hnil] at hlenpos
      simp at hlenpos
    have hidsne : currentIdsOf H W raster cutOff s z ≠ [] :=
      currentIdsOf_ne_nil H W raster cutOff s z hmne
    have hvpos : 0 < minId (currentIdsOf H W raster cutOff s z) :=
      minId_pos hidsne hMids
    have hzero : (0 : ℕ) ∉ currentIdsOf H W raster cutOff s z := by
      intro habs
      exact absurd (hMids 0 habs) (lt_irrefl 0)
    refine ⟨?_, ?_, ?_, h4, ?_⟩
    · intro c hc
      rcases (hmem c).1 hc with hcP | rfl
      · exact h0 c hcP
      · exact hzb
    · intro c hc
      rw [hnotmem] at hc
      dsimp only
      rw [setCell_other _ _ _ _ hc.2, setCell_other _ _ _ _ hc.2]
      refine ⟨?_, (h2 c hc.1).2⟩
      rw [(h2 c hc.1).1]
      simp [hzero]
    · intro c hc
      dsimp only
      rcases (hmem c).1 hc with hcP | rfl
      · have hcz : c ≠ z := fun he => hz (he ▸ hcP)
        rw [setCell_other _ _ _ _ hcz, setCell_other _ _ _ _ hcz]
        refine ⟨(h3 c hcP).1, ?_⟩
        by_cases hcin : s.fireId c ∈ currentIdsOf H W raster cutOff s z
        · simp only [hcin, if_pos]
          exact hvpos
        · simp only [hcin, if_neg, ite_false]
          exact (h3 c hcP).2
      · rw [setCell_same, setCell_same]
        exact ⟨rfl, hvpos⟩
    · intro p q hp hq hlink
      dsimp only
      rcases (hmem p).1 hp with hpP | hpz2
      · rcases (hmem q).1 hq with hqP | hqz2
        · have hpz : p ≠ z := fun he => hz (he ▸ hpP)
          have hqz : q ≠ z := fun he => hz (he ▸ hqP)
          rw [setCell_other _ _ _ _ hpz, setCell_other _ _ _ _ hqz]
          rw [h5 p q hpP hqP hlink]
        · rw [hqz2] at hlink ⊢
          have hpz : p ≠ z := fun he => hz (he ▸ hpP)
          rw [setCell_other _ _ _ _ hpz, setCell_same]
          have hpm := hadjm p hpP hlink
          have hpmem : s.fireId p ∈ currentIdsOf H W raster cutOff s z :=
            (mem_currentIdsOf H W raster cutOff s z (s.fireId p)).2 ⟨p, hpm, rfl⟩
          simp [hpmem]
      · rw [hpz2] at hlink ⊢
        rcases (hmem q).1 hq with hqP | hqz2
        · have hqz : q ≠ z := fun he => hz (he ▸ hqP)
          rw [setCell_other _ _ _ _ hqz, setCell_same]
          have hqm := hadjm q hqP (sameEventStep_symm hlink)
          have hqmem : s.fireId q ∈ currentIdsOf H W raster cutOff s z :=
            (mem_currentIdsOf H W raster cutOff s z (s.fireId q)).2 ⟨q, hqm, rfl⟩
          simp [hqmem]
        · rw [hqz2]
  · exfalso
    have hl : 0 < (matchingOf H W raster cutOff s z).length := hc3.2
    have hne : matchingOf H W raster cutOff s z ≠ [] := by
      intro hnil
      rw [hnil] at hl
      simp at hl
    have hidpos : 0 < (currentIdsOf H W raster cutOff s z).length :=
      List.length_pos.2 (currentIdsOf_ne_nil H W raster cutOff s z hne)
    push_neg at hc4
    have hlt : 1 < (matchingOf H W raster cutOff s z).length := by omega
    have hne1 := hc4.2 hlt
    push_neg at hc5
    have := hc5 hlt
    omega
  · exfalso
    push_neg at hc1
    exact hc3 ⟨hc1.1, Nat.pos_of_ne_zero (hc1.2 hc1.1)⟩

theorem QInv_foldl (H W : ℕ) (raster : ℕ × ℕ → ℤ) (cutOff : ℤ)
    (hquirk : ∀ c ∈ allCoords H W, raster c = 0 ∨ cutOff < raster c) :
    ∀ (L P : List (ℕ × ℕ)) (s : FFState), QInv H W raster cutOff P s →
      (∀ z ∈ L, z ∉ P) → (∀ z ∈ L, (z.1 < H ∧ z.2 < W) ∧ 0 < raster z) → L.Nodup →
      QInv H W raster cutOff (P ++ L) (L.foldl (step H W raster cutOff) s)
  | [], P, s, h, _, _, _ => by simpa using h
  | z :: L', P, s, h, hdisj, hbnd, hnd => by
    rw [List.foldl_cons]
    have hstep := QInv_step H W raster cutOff hquirk P s z
      (hdisj z (List.mem_cons_self z L')) (hbnd z (List.mem_cons_self z L')) h
    have hnd' := List.nodup_cons.1 hnd
    have hrec := QInv_foldl H W raster cutOff hquirk L' (P ++ [z])
      (step H W raster cutOff s z) hstep
      (fun z' hz' => by
        simp only [List.mem_append, List.mem_singleton]
        rintro (hzP | rfl)
        · exact hdisj z' (List.mem_cons_of_mem z hz') hzP
        · exact hnd'.1 hz')
      (fun z' hz' => hbnd z' (List.mem_cons_of_mem z hz'))
      hnd'.2
    rw [List.append_assoc, List.singleton_append] at hrec
    exact hrec

theorem QInv_run (H W : ℕ) (raster : ℕ × ℕ → ℤ) (cutOff : ℤ)
    (hquirk : ∀ c ∈ allCoords H W, raster c = 0 ∨ cutOff < raster c) :
    QInv H W raster cutOff (burnedCoords H W raster) (run H W raster cutOff) := by
  have h0 : QInv H W raster cutOff [] initState :=
    ⟨fun c hc => absurd hc (List.not_mem_nil c),
     fun _ _ => ⟨rfl, rfl⟩,
     fun c hc => absurd hc (List.not_mem_nil c),
     le_refl 1,
     fun p q hp _ _ => absurd hp (List.not_mem_nil p)⟩
  have := QInv_foldl H W raster cutOff hquirk (burnedCoords H W raster) [] initState h0
    (by simp)
    (fun z hz => (mem_burnedCoords H W raster z).1 hz)
    (nodup_burnedCoords H W raster)
  simpa [run] using this

/-- Claim C1 counterexample: on the 1 by 4 raster [10, 1, 2, 0] with cutoff
1, pixels (0,1) and (0,2) are burned, 8-adjacent and their dates 1 and 2
differ by at most the cutoff (a one-link chain), yet the final EventIdGrid
holds 0 at (0,1) and 2 at (0,2): pixel (0,1) has date 1 ≤ cutoff, so its
unlabeled neighbor (0,2) passes the cutoff test while its labeled neighbor
(0,0) does not, and (0,1) adopts the id 0; later (0,2) sees no labeled
neighbor at all and starts a fresh fire. -/
theorem C1_counterexample :
    Relation.ReflTransGen (sameEventStep 1 4 rasterChainSplit 1) (0, 1) (0, 2) ∧
    (run 1 4 rasterChainSplit 1).fireId (0, 1) = 0 ∧
    (run 1 4 rasterChainSplit 1).fireId (0, 2) = 2 ∧
    (run 1 4 rasterChainSplit 1).fireId (0, 1) ≠ (run 1 4 rasterChainSplit 1).fireId (0, 2) :=
  ⟨Relation.ReflTransGen.single (by decide), by decide, by decide, by decide⟩

/-- Claim C1 (amended): when every burned date exceeds the cutoff (so that
the unlabeled-neighbor quirk never fires) and the cutoff is nonnegative, any
two pixels joined by a chain of 8-adjacent burned pixels with consecutive
date differences at most the cutoff hold the same identifier in the final
EventIdGrid returned by run: the partition never splits such a chain. -/
theorem C1_chain_same_id (H W : ℕ) (raster : ℕ × ℕ → ℤ) (cutOff : ℤ)
    (hcut : 0 ≤ cutOff)
    (hquirk : ∀ c ∈ allCoords H W, raster c = 0 ∨ cutOff < raster c)
    (p q : ℕ × ℕ)
    (hchain : Relation.ReflTransGen (sameEventStep H W raster cutOff) p q) :
    (run H W raster cutOff).fireId p = (run H W raster cutOff).fireId q := by
  obtain ⟨_, _, _, _, h5⟩ := QInv_run H W raster cutOff hquirk
  induction hchain with
  | refl => rfl
  | tail hab hbc ih =>
    rename_i b c
    have hbmem : b ∈ burnedCoords H W raster :=
      (mem_burnedCoords H W raster b).2 ⟨hbc.1, hbc.2.2.1⟩
    have hcmem : c ∈ burnedCoords H W raster :=
      (mem_burnedCoords H W raster c).2 ⟨hbc.2.1, hbc.2.2.2.1⟩
    exact ih.trans (h5 b c hbmem hcmem hbc)

/-- Witness for the amended C1 at a concrete instance. -/
theorem C1_chain_same_id_witness :
    (run 1 2 rasterPairLate 2).fireId (0, 0) = (run 1 2 rasterPairLate 2).fireId (0, 1) :=
  C1_chain_same_id 1 2 rasterPairLate 2 (by decide) (by decide) (0, 0) (0, 1)
    (Relation.ReflTransGen.single (by decide))
